import Mathlib

/-!
# Verification of the `MongoDBGraphStore` GraphRAG layer

A shallow embedding of `langchain_mongodb/graphrag/graph.py`.

The store is a MongoDB collection of entity documents.  Entity extraction
(an LLM call) is an external collaborator: its output, a list of extracted
entities, is taken as input here.  The MongoDB operations the code issues —
`UpdateOne` with `$setOnInsert` / `$addToSet` and `upsert=True`, `bulk_write`,
and the `related_entities` aggregation pipeline (`$match`, `$graphLookup`,
`$unwind`, `$replaceRoot`, `$group` by `ID` keeping `$first`) — are embedded
with their documented semantics, specialised to the exact update and pipeline
documents the source constructs.
-/

set_option autoImplicit false

namespace GraphRAG

/-- BSON-style scalar values stored as property values.  `$addToSet` compares
values by exact (structural) equality, which `DecidableEq` models. -/
inductive BVal where
  | str : String → BVal
  | num : Int → BVal
  | boolean : Bool → BVal
deriving DecidableEq, Repr

/-- A relationship-target descriptor: one element of the array stored under
`relationships.<type>`.  Per the entity schema it carries a target entity ID
and optional metadata properties. -/
structure RelTarget where
  target : String
  props : List (String × BVal) := []
deriving DecidableEq, Repr

/-- An extracted entity, as returned by `extract_entities`: the JSON object
the LLM produces following the entity schema.  `properties` maps an attribute
name to a single value; `relationships` maps a relationship type to a list of
target descriptors. -/
structure Entity where
  ID : String
  type : String
  properties : List (String × BVal) := []
  relationships : List (String × List RelTarget) := []
deriving DecidableEq, Repr

/-- A stored entity document in the collection.  The arrays under
`properties.<k>` and `relationships.<k>` are what repeated `$addToSet`
updates accumulate. -/
structure EntityDoc where
  ID : String
  type : String
  properties : List (String × List BVal) := []
  relationships : List (String × List RelTarget) := []
deriving DecidableEq, Repr

/-- Lookup in an embedded key-value document (first occurrence of the key). -/
def lookupA {α : Type} (ps : List (String × α)) (k : String) : Option α :=
  match ps with
  | [] => none
  | (k', v) :: rest => if k' = k then some v else lookupA rest k

/-- The array stored at key `k`, or `[]` when the field is absent. -/
def lookupArr {α : Type} (ps : List (String × List α)) (k : String) : List α :=
  (lookupA ps k).getD []

/-- MongoDB `$addToSet` of a single value: append it unless already present. -/
def addToSet {α : Type} [DecidableEq α] (xs : List α) (v : α) : List α :=
  if v ∈ xs then xs else xs ++ [v]

/-- MongoDB `$addToSet` with `$each`: add every value of `vs` in order. -/
def addToSetEach {α : Type} [DecidableEq α] (xs : List α) (vs : List α) : List α :=
  vs.foldl addToSet xs

/-- Apply `$addToSet { <field k>: { $each: vs } }` to an embedded document:
update the array at `k` in place, or create the field when absent. -/
def assocAddToSet {α : Type} [DecidableEq α] (ps : List (String × List α)) (k : String)
    (vs : List α) : List (String × List α) :=
  match ps with
  | [] => [(k, addToSetEach [] vs)]
  | (k', arr) :: rest =>
    if k' = k then (k', addToSetEach arr vs) :: rest
    else (k', arr) :: assocAddToSet rest k vs

/-- The update path of the `UpdateOne` built in `add_documents`, applied to a
matched document: `$setOnInsert` does not fire, and `$addToSet` adds each
extracted property value (one value per key) and each relationship-target
descriptor (`$each` over the extracted list) to the stored arrays. -/
def applyUpdate (d : EntityDoc) (e : Entity) : EntityDoc :=
  { d with
    properties := e.properties.foldl (fun ps kv => assocAddToSet ps kv.1 [kv.2]) d.properties
    relationships :=
      e.relationships.foldl (fun rs kv => assocAddToSet rs kv.1 kv.2) d.relationships }

/-- The insert path of the upsert: the new document is built from the filter
`{ID: e.ID}`, `$setOnInsert {ID, type}`, and the `$addToSet` clauses applied
to absent fields. -/
def insertDoc (e : Entity) : EntityDoc :=
  { ID := e.ID
    type := e.type
    properties := e.properties.foldl (fun ps kv => assocAddToSet ps kv.1 [kv.2]) []
    relationships := e.relationships.foldl (fun rs kv => assocAddToSet rs kv.1 kv.2) [] }

/-- Execute one `UpdateOne(filter={"ID": e.ID}, update=..., upsert=True)`
against the collection: update the first document whose `ID` matches, or
append a freshly inserted document when none does. -/
def updateOneUpsert : List EntityDoc → Entity → List EntityDoc
  | [], e => [insertDoc e]
  | d :: rest, e =>
    if d.ID = e.ID then applyUpdate d e :: rest
    else d :: updateOneUpsert rest e

/-- The call `collection.bulk_write(operations)` with the per-entity upserts built in
`add_documents`: ordered execution, one upsert per extracted entity. -/
def bulk_write (store : List EntityDoc) (entities : List Entity) : List EntityDoc :=
  entities.foldl updateOneUpsert store

/-- The method `add_documents`, with entity extraction factored out: the input is the
list of extraction results, one list of entities per input document.  For each
document a bulk write is executed and a result recorded only when the
operation list is nonempty.  Each bulk-write result is abstracted to its
number of operations. -/
def add_documents : List EntityDoc → List (List Entity) → List EntityDoc × List Nat
  | store, [] => (store, [])
  | store, es :: rest =>
    if es.isEmpty then add_documents store rest
    else ((add_documents (bulk_write store es) rest).1,
      es.length :: (add_documents (bulk_write store es) rest).2)

/-- The first stored document whose `ID` field equals `i`, if any. -/
def getDoc (store : List EntityDoc) (i : String) : Option EntityDoc :=
  store.find? (fun d => d.ID = i)

/-- The `startWith` expression of the `$graphLookup`: `$reduce` over
`$objectToArray "$relationships"` concatenating `$$this.v.target`, i.e. the
relationship-target IDs of the document, all types, in stored order. -/
def startWithTargets (d : EntityDoc) : List String :=
  d.relationships.foldl (fun acc kv => acc ++ kv.2.map RelTarget.target) []

/-- One round of `$graphLookup` recursion over `fuel` remaining depth levels:
`frontier` is the current set of values to match against `connectToField`
(`"ID"`), and `found` the documents already collected (each document is
visited at most once, which is how `$graphLookup` stays safe on cycles).
The next frontier is the `connectFromField` (`"ID"`) value of each newly
found document. -/
def graphLookupGo (store : List EntityDoc) :
    Nat → List String → List EntityDoc → List EntityDoc
  | 0, _, found => found
  | fuel + 1, frontier, found =>
    let freshDocs := store.filter
      (fun d => decide (d.ID ∈ frontier) && !decide (d.ID ∈ found.map EntityDoc.ID))
    graphLookupGo store fuel (freshDocs.map EntityDoc.ID) (found ++ freshDocs)

/-- The `$graphLookup` stage as configured in `related_entities`, producing the
`connections` array for one input document: recursion from its relationship
targets, matching `connectToField "ID"`, recursing on `connectFromField "ID"`,
visiting depths `0 .. maxDepth`. -/
def graphLookup (store : List EntityDoc) (d : EntityDoc) (maxDepth : Nat) : List EntityDoc :=
  graphLookupGo store (maxDepth + 1) (startWithTargets d) []

/-- The `$group {_id: "$ID", document: {$first: "$$ROOT"}}` stage followed by
`$replaceRoot`: keep the first document seen for each `ID`. -/
def groupFirstByID (seen : List String) : List EntityDoc → List EntityDoc
  | [] => []
  | d :: rest =>
    if d.ID ∈ seen then groupFirstByID seen rest
    else d :: groupFirstByID (d.ID :: seen) rest

/-- The full aggregation pipeline of `related_entities`, run with an explicit
traversal depth: `$match` the seed IDs, `$graphLookup` per seed document,
`$unwind`/`$replaceRoot` to flatten all connections, then deduplicate by
`ID`. -/
def relatedEntitiesPipeline (store : List EntityDoc) (starting : List String)
    (maxDepth : Nat) : List EntityDoc :=
  let seeds := store.filter (fun d => decide (d.ID ∈ starting))
  let unwound := (seeds.map (fun d => graphLookup store d maxDepth)).flatten
  groupFirstByID [] unwound

/-- Python `or` on two non-negative integers: the left operand unless it is
falsy (zero). -/
def pyOr (a b : Nat) : Nat :=
  if a = 0 then b else a

/-- The state of a `MongoDBGraphStore`: its collection and the `max_depth`
configured at construction (default 2). -/
structure MongoDBGraphStore where
  collection : List EntityDoc
  max_depth : Nat := 2

/-- The method `related_entities(self, starting_entities, max_depth=3)`: runs the
aggregation pipeline with `maxDepth` set to `max_depth or self.max_depth`. -/
def MongoDBGraphStore.related_entities (self : MongoDBGraphStore)
    (starting_entities : List String) (max_depth : Nat := 3) : List EntityDoc :=
  relatedEntitiesPipeline self.collection starting_entities (pyOr max_depth self.max_depth)

/-- Modelled from the spec: "the bounded-depth graph traversal that starts
from a set of seed entity identifiers and returns the transitive closure of
connected entities up to a depth limit".  Unlike the pipeline in the source,
each newly found entity contributes its own relationship targets to the next
frontier, so edges are followed transitively. -/
def specReachableGo (store : List EntityDoc) :
    Nat → List String → List EntityDoc → List EntityDoc
  | 0, _, found => found
  | fuel + 1, frontier, found =>
    let freshDocs := store.filter
      (fun d => decide (d.ID ∈ frontier) && !decide (d.ID ∈ found.map EntityDoc.ID))
    specReachableGo store fuel
      (freshDocs.foldl (fun acc d => acc ++ startWithTargets d) []) (found ++ freshDocs)

/-- Modelled from the spec: the set of entities reachable from the seed
documents by following relationship-target edges, up to the depth limit
(depth 0 being the direct targets of the seeds, as in `$graphLookup`). -/
def specReachableEntities (store : List EntityDoc) (starting : List String)
    (maxDepth : Nat) : List EntityDoc :=
  let seeds := store.filter (fun d => decide (d.ID ∈ starting))
  specReachableGo store (maxDepth + 1)
    (seeds.foldl (fun acc d => acc ++ startWithTargets d) []) []

/-! ## Basic lemmas about `$addToSet` on embedded documents -/

theorem mem_addToSet {α : Type} [DecidableEq α] (xs : List α) (w v : α) :
    v ∈ addToSet xs w ↔ v ∈ xs ∨ v = w := by
  unfold addToSet
  split
  · rename_i hw
    constructor
    · exact fun h => Or.inl h
    · rintro (h | rfl)
      · exact h
      · exact hw
  · simp [or_comm]

theorem mem_addToSetEach {α : Type} [DecidableEq α] (vs xs : List α) (v : α) :
    v ∈ addToSetEach xs vs ↔ v ∈ xs ∨ v ∈ vs := by
  induction vs generalizing xs with
  | nil => simp [addToSetEach]
  | cons w ws ih =>
    show v ∈ addToSetEach (addToSet xs w) ws ↔ _
    rw [ih, mem_addToSet]
    simp [or_assoc]

theorem subset_addToSetEach {α : Type} [DecidableEq α] (vs xs : List α) :
    xs ⊆ addToSetEach xs vs :=
  fun _ h => (mem_addToSetEach vs xs _).2 (Or.inl h)

theorem addToSetEach_eq_self {α : Type} [DecidableEq α] (vs xs : List α)
    (h : ∀ v ∈ vs, v ∈ xs) : addToSetEach xs vs = xs := by
  induction vs with
  | nil => rfl
  | cons w ws ih =>
    show addToSetEach (addToSet xs w) ws = xs
    rw [addToSet, if_pos (h w (by simp))]
    exact ih fun v hv => h v (by simp [hv])

theorem lookupA_assocAddToSet {α : Type} [DecidableEq α]
    (ps : List (String × List α)) (k' k : String) (vs : List α) :
    lookupA (assocAddToSet ps k' vs) k =
      if k = k' then some (addToSetEach ((lookupA ps k).getD []) vs)
      else lookupA ps k := by
  induction ps with
  | nil =>
    show lookupA [(k', addToSetEach [] vs)] k = _
    unfold lookupA
    rcases eq_or_ne k k' with rfl | hk
    · simp [lookupA]
    · simp [Ne.symm hk, hk, lookupA]
  | cons p rest ih =>
    obtain ⟨k₀, arr⟩ := p
    show lookupA (if k₀ = k' then (k₀, addToSetEach arr vs) :: rest
      else (k₀, arr) :: assocAddToSet rest k' vs) k = _
    rcases eq_or_ne k₀ k' with rfl | h0
    · rw [if_pos rfl]
      rcases eq_or_ne k k₀ with rfl | hk
      · simp [lookupA]
      · simp [lookupA, Ne.symm hk, hk]
    · rw [if_neg h0]
      rcases eq_or_ne k₀ k with rfl | hk
      · simp [lookupA, Ne.symm h0, h0]
      · simp [lookupA, hk, ih]

theorem lookupArr_assocAddToSet {α : Type} [DecidableEq α]
    (ps : List (String × List α)) (k' k : String) (vs : List α) :
    lookupArr (assocAddToSet ps k' vs) k =
      if k = k' then addToSetEach (lookupArr ps k) vs else lookupArr ps k := by
  unfold lookupArr
  rw [lookupA_assocAddToSet]
  split <;> rfl

theorem assocAddToSet_eq_self {α : Type} [DecidableEq α]
    (ps : List (String × List α)) (k : String) (vs arr : List α)
    (hl : lookupA ps k = some arr) (hs : ∀ v ∈ vs, v ∈ arr) :
    assocAddToSet ps k vs = ps := by
  induction ps with
  | nil => simp [lookupA] at hl
  | cons p rest ih =>
    obtain ⟨k₀, arr₀⟩ := p
    show (if k₀ = k then (k₀, addToSetEach arr₀ vs) :: rest
      else (k₀, arr₀) :: assocAddToSet rest k vs) = _
    rcases eq_or_ne k₀ k with rfl | h0
    · rw [if_pos rfl]
      rw [show lookupA ((k₀, arr₀) :: rest) k₀ = some arr₀ from by simp [lookupA]] at hl
      obtain rfl : arr₀ = arr := by injection hl
      rw [addToSetEach_eq_self vs arr₀ hs]
    · rw [if_neg h0]
      rw [show lookupA ((k₀, arr₀) :: rest) k = lookupA rest k from by simp [lookupA, h0]] at hl
      rw [ih hl]

/-! ## Lemmas about folding `$addToSet` clauses over an extracted entity -/

theorem mem_lookupArr_foldl {α β : Type} [DecidableEq α] (F : β → List α)
    (kvs : List (String × β)) (ps : List (String × List α)) (k : String) (v : α) :
    v ∈ lookupArr (kvs.foldl (fun ps kv => assocAddToSet ps kv.1 (F kv.2)) ps) k ↔
      v ∈ lookupArr ps k ∨ ∃ b, (k, b) ∈ kvs ∧ v ∈ F b := by
  induction kvs generalizing ps with
  | nil => simp
  | cons kv rest ih =>
    obtain ⟨k₀, b₀⟩ := kv
    rw [List.foldl_cons, ih, lookupArr_assocAddToSet]
    by_cases hk : k = k₀
    · subst hk
      rw [if_pos rfl, mem_addToSetEach]
      simp only [List.mem_cons, Prod.mk.injEq]
      constructor
      · rintro ((h | h) | ⟨b, hb, hvb⟩)
        · exact Or.inl h
        · exact Or.inr ⟨b₀, Or.inl ⟨trivial, rfl⟩, h⟩
        · exact Or.inr ⟨b, Or.inr hb, hvb⟩
      · rintro (h | ⟨b, (⟨-, rfl⟩ | hb), hvb⟩)
        · exact Or.inl (Or.inl h)
        · exact Or.inl (Or.inr hvb)
        · exact Or.inr ⟨b, hb, hvb⟩
    · rw [if_neg hk]
      simp only [List.mem_cons, Prod.mk.injEq]
      constructor
      · rintro (h | ⟨b, hb, hvb⟩)
        · exact Or.inl h
        · exact Or.inr ⟨b, Or.inr hb, hvb⟩
      · rintro (h | ⟨b, (⟨h1, rfl⟩ | hb), hvb⟩)
        · exact Or.inl h
        · exact absurd h1 hk
        · exact Or.inr ⟨b, hb, hvb⟩

theorem lookupA_mono_foldl {α β : Type} [DecidableEq α] (F : β → List α)
    (kvs : List (String × β)) (ps : List (String × List α)) (k : String) (arr : List α)
    (h : lookupA ps k = some arr) :
    ∃ arr', lookupA (kvs.foldl (fun ps kv => assocAddToSet ps kv.1 (F kv.2)) ps) k = some arr'
      ∧ arr ⊆ arr' := by
  induction kvs generalizing ps arr with
  | nil => exact ⟨arr, h, fun _ hx => hx⟩
  | cons kv rest ih =>
    obtain ⟨k₀, b₀⟩ := kv
    rw [List.foldl_cons]
    by_cases hk : k = k₀
    · subst hk
      obtain ⟨arr', ha, hsub⟩ := ih (assocAddToSet ps k (F b₀))
        (addToSetEach ((lookupA ps k).getD []) (F b₀))
        (by rw [lookupA_assocAddToSet, if_pos rfl])
      refine ⟨arr', ha, fun x hx => hsub ?_⟩
      rw [h]
      exact subset_addToSetEach (F b₀) arr hx
    · obtain ⟨arr', ha, hsub⟩ := ih (assocAddToSet ps k₀ (F b₀)) arr
        (by rw [lookupA_assocAddToSet, if_neg hk]; exact h)
      exact ⟨arr', ha, hsub⟩

theorem foldl_assocAddToSet_eq_self {α β : Type} [DecidableEq α] (F : β → List α)
    (kvs : List (String × β)) (ps : List (String × List α))
    (h : ∀ kv ∈ kvs, ∃ arr, lookupA ps kv.1 = some arr ∧ ∀ v ∈ F kv.2, v ∈ arr) :
    kvs.foldl (fun ps kv => assocAddToSet ps kv.1 (F kv.2)) ps = ps := by
  induction kvs with
  | nil => rfl
  | cons kv rest ih =>
    obtain ⟨arr, hl, hs⟩ := h kv (by simp)
    rw [List.foldl_cons, assocAddToSet_eq_self _ _ _ arr hl hs]
    exact ih fun kv' hkv' => h kv' (by simp [hkv'])

theorem foldl_assocAddToSet_absorbs {α β : Type} [DecidableEq α] (F : β → List α)
    (kvs : List (String × β)) (ps : List (String × List α)) :
    ∀ kv ∈ kvs, ∃ arr,
      lookupA (kvs.foldl (fun ps kv => assocAddToSet ps kv.1 (F kv.2)) ps) kv.1 = some arr
      ∧ ∀ v ∈ F kv.2, v ∈ arr := by
  induction kvs generalizing ps with
  | nil => intro kv hkv; simp at hkv
  | cons kv₀ rest ih =>
    intro kv hkv
    rcases List.mem_cons.1 hkv with rfl | hkv'
    · rw [List.foldl_cons]
      obtain ⟨arr', ha, hsub⟩ := lookupA_mono_foldl F rest (assocAddToSet ps kv.1 (F kv.2))
        kv.1 (addToSetEach ((lookupA ps kv.1).getD []) (F kv.2))
        (by rw [lookupA_assocAddToSet, if_pos rfl])
      exact ⟨arr', ha, fun v hv =>
        hsub ((mem_addToSetEach _ _ _).2 (Or.inr hv))⟩
    · rw [List.foldl_cons]
      exact ih (assocAddToSet ps kv₀.1 (F kv₀.2)) kv hkv'

/-! ## Lemmas about the upsert against the collection -/

theorem applyUpdate_ID (d : EntityDoc) (e : Entity) : (applyUpdate d e).ID = d.ID := rfl

theorem applyUpdate_type (d : EntityDoc) (e : Entity) : (applyUpdate d e).type = d.type := rfl

theorem insertDoc_ID (e : Entity) : (insertDoc e).ID = e.ID := rfl

theorem insertDoc_type (e : Entity) : (insertDoc e).type = e.type := rfl

theorem getDoc_nil (i : String) : getDoc [] i = none := rfl

theorem getDoc_cons (d : EntityDoc) (rest : List EntityDoc) (i : String) :
    getDoc (d :: rest) i = if d.ID = i then some d else getDoc rest i := by
  unfold getDoc
  rcases eq_or_ne d.ID i with h | h
  · rw [List.find?_cons_of_pos _ (by simp [h]), if_pos h]
  · rw [List.find?_cons_of_neg _ (by simp [h]), if_neg h]

theorem getDoc_updateOneUpsert_match (store : List EntityDoc) (e : Entity) (d : EntityDoc)
    (hd : getDoc store e.ID = some d) :
    getDoc (updateOneUpsert store e) e.ID = some (applyUpdate d e) := by
  induction store with
  | nil => simp [getDoc_nil] at hd
  | cons d₁ rest ih =>
    rw [getDoc_cons] at hd
    show getDoc (if d₁.ID = e.ID then applyUpdate d₁ e :: rest
      else d₁ :: updateOneUpsert rest e) e.ID = _
    rcases eq_or_ne d₁.ID e.ID with h | h
    · rw [if_pos h] at hd ⊢
      obtain rfl : d₁ = d := by injection hd
      rw [getDoc_cons, if_pos (by rw [applyUpdate_ID]; exact h)]
    · rw [if_neg h] at hd ⊢
      rw [getDoc_cons, if_neg h]
      exact ih hd

theorem updateOneUpsert_of_getDoc_none (store : List EntityDoc) (e : Entity)
    (hn : getDoc store e.ID = none) :
    updateOneUpsert store e = store ++ [insertDoc e] := by
  induction store with
  | nil => rfl
  | cons d₁ rest ih =>
    rw [getDoc_cons] at hn
    show (if d₁.ID = e.ID then applyUpdate d₁ e :: rest
      else d₁ :: updateOneUpsert rest e) = _
    rcases eq_or_ne d₁.ID e.ID with h | h
    · rw [if_pos h] at hn; exact absurd hn (by simp)
    · rw [if_neg h] at hn
      rw [if_neg h, ih hn, List.cons_append]

theorem getDoc_updateOneUpsert_ne (store : List EntityDoc) (e : Entity) (i : String)
    (hi : i ≠ e.ID) : getDoc (updateOneUpsert store e) i = getDoc store i := by
  induction store with
  | nil =>
    show getDoc [insertDoc e] i = getDoc [] i
    rw [getDoc_cons, if_neg (by rw [insertDoc_ID]; exact fun h => hi h.symm)]
  | cons d₁ rest ih =>
    show getDoc (if d₁.ID = e.ID then applyUpdate d₁ e :: rest
      else d₁ :: updateOneUpsert rest e) i = _
    rcases eq_or_ne d₁.ID e.ID with h | h
    · have hne : d₁.ID ≠ i := by rw [h]; exact fun hc => hi hc.symm
      rw [if_pos h, getDoc_cons, getDoc_cons, applyUpdate_ID, if_neg hne, if_neg hne]
    · rw [if_neg h, getDoc_cons, getDoc_cons, ih]

/-- The merged document's property array at key `k` is, as a set, the union
of the old array and the extracted entity's value at `k`. -/
theorem mem_applyUpdate_properties (d : EntityDoc) (e : Entity) (k : String) (v : BVal) :
    v ∈ lookupArr (applyUpdate d e).properties k ↔
      v ∈ lookupArr d.properties k ∨ (k, v) ∈ e.properties := by
  have h := mem_lookupArr_foldl (fun b => [b]) e.properties d.properties k v
  simp only [List.mem_singleton] at h
  refine Iff.trans h ?_
  constructor
  · rintro (h1 | ⟨b, hb, rfl⟩)
    · exact Or.inl h1
    · exact Or.inr hb
  · rintro (h1 | h1)
    · exact Or.inl h1
    · exact Or.inr ⟨v, h1, rfl⟩

/-- The merged document's relationship array at type `k` is, as a set, the
union of the old array and the extracted entity's target descriptors at `k`. -/
theorem mem_applyUpdate_relationships (d : EntityDoc) (e : Entity) (k : String)
    (t : RelTarget) :
    t ∈ lookupArr (applyUpdate d e).relationships k ↔
      t ∈ lookupArr d.relationships k ∨ ∃ ts, (k, ts) ∈ e.relationships ∧ t ∈ ts :=
  mem_lookupArr_foldl (fun ts => ts) e.relationships d.relationships k t

/-! ## Concrete fixtures used by witnesses -/

/-- A stored entity document used as a concrete witness input. -/
def wDoc : EntityDoc :=
  { ID := "A", type := "T", properties := [("p", [BVal.str "x"])],
    relationships := [("r", [{ target := "B" }])] }

/-- An extracted entity with the same identifier as `wDoc` but a different
type, fresh values under an existing and a fresh key. -/
def wEnt : Entity :=
  { ID := "A", type := "U", properties := [("p", BVal.str "y"), ("q", BVal.num 7)],
    relationships := [("r", [{ target := "C" }])] }

/-- C1: merging an extracted entity into the stored document with the same
identifier makes every stored array the set-union of the old array and the
newly extracted values, for each property key and each relationship type;
nothing previously stored is removed or overwritten. -/
theorem upsert_merge_is_set_union (store : List EntityDoc) (e : Entity) (d d' : EntityDoc)
    (hd : getDoc store e.ID = some d)
    (hd' : getDoc (updateOneUpsert store e) e.ID = some d') :
    (∀ k v, v ∈ lookupArr d'.properties k ↔
      v ∈ lookupArr d.properties k ∨ (k, v) ∈ e.properties) ∧
    (∀ k t, t ∈ lookupArr d'.relationships k ↔
      t ∈ lookupArr d.relationships k ∨ ∃ ts, (k, ts) ∈ e.relationships ∧ t ∈ ts) := by
  rw [getDoc_updateOneUpsert_match store e d hd] at hd'
  obtain rfl : d' = applyUpdate d e := by injection hd' with h; exact h.symm
  exact ⟨fun k v => mem_applyUpdate_properties d e k v,
    fun k t => mem_applyUpdate_relationships d e k t⟩

/-- Witness for C1 at a concrete store: the old value `"x"`, the new value
`"y"` and the old relationship target `"B"` are all present after the merge. -/
theorem upsert_merge_is_set_union_witness :
    BVal.str "x" ∈ lookupArr (applyUpdate wDoc wEnt).properties "p" ∧
    BVal.str "y" ∈ lookupArr (applyUpdate wDoc wEnt).properties "p" ∧
    ({ target := "B" } : RelTarget) ∈ lookupArr (applyUpdate wDoc wEnt).relationships "r" := by
  have h := upsert_merge_is_set_union [wDoc] wEnt wDoc (applyUpdate wDoc wEnt)
    (by decide) (by decide)
  exact ⟨(h.1 "p" (BVal.str "x")).2 (Or.inl (by decide)),
    (h.1 "p" (BVal.str "y")).2 (Or.inr (by decide)),
    (h.2 "r" { target := "B" }).2 (Or.inl (by decide))⟩

/-- C2: merging into an existing document leaves its `ID` and `type` fields
unchanged (no hypothesis relates the stored and extracted types); the two
fields are written only on the insert path of the upsert. -/
theorem upsert_set_once_ID_type (store : List EntityDoc) (e : Entity) :
    (∀ d, getDoc store e.ID = some d →
      getDoc (updateOneUpsert store e) e.ID = some (applyUpdate d e) ∧
      (applyUpdate d e).ID = d.ID ∧ (applyUpdate d e).type = d.type) ∧
    (getDoc store e.ID = none →
      updateOneUpsert store e = store ++ [insertDoc e] ∧
      (insertDoc e).ID = e.ID ∧ (insertDoc e).type = e.type) :=
  ⟨fun d hd => ⟨getDoc_updateOneUpsert_match store e d hd, rfl, rfl⟩,
    fun hn => ⟨updateOneUpsert_of_getDoc_none store e hn, rfl, rfl⟩⟩

/-- Witness for C2: the stored type `"T"` survives a merge with an extracted
entity of type `"U"`. -/
theorem upsert_set_once_ID_type_witness :
    (applyUpdate wDoc wEnt).type = "T" ∧ wDoc.type = "T" ∧ wEnt.type = "U" := by
  have h := (upsert_set_once_ID_type [wDoc] wEnt).1 wDoc (by decide)
  exact ⟨by rw [h.2.2]; rfl, rfl, rfl⟩

/-! ## Uniqueness of identifiers -/

theorem add_documents_nil (store : List EntityDoc) : add_documents store [] = (store, []) := rfl

theorem add_documents_cons (store : List EntityDoc) (es : List Entity)
    (rest : List (List Entity)) :
    add_documents store (es :: rest) =
      if es.isEmpty then add_documents store rest
      else ((add_documents (bulk_write store es) rest).1,
        es.length :: (add_documents (bulk_write store es) rest).2) := rfl

theorem updateOneUpsert_cons (d : EntityDoc) (rest : List EntityDoc) (e : Entity) :
    updateOneUpsert (d :: rest) e =
      if d.ID = e.ID then applyUpdate d e :: rest
      else d :: updateOneUpsert rest e := rfl

theorem mem_map_ID_updateOneUpsert (store : List EntityDoc) (e : Entity) (x : String)
    (hx : x ∈ (updateOneUpsert store e).map EntityDoc.ID) :
    x ∈ store.map EntityDoc.ID ∨ x = e.ID := by
  induction store with
  | nil =>
    simp only [updateOneUpsert, List.map_cons, List.map_nil, List.mem_singleton] at hx
    exact Or.inr hx
  | cons d rest ih =>
    rw [updateOneUpsert_cons] at hx
    rcases eq_or_ne d.ID e.ID with h | h
    · rw [if_pos h, List.map_cons, applyUpdate_ID] at hx
      rw [List.map_cons]
      exact Or.inl hx
    · rw [if_neg h, List.map_cons] at hx
      rw [List.map_cons]
      rcases List.mem_cons.1 hx with h1 | h1
      · exact Or.inl (List.mem_cons.2 (Or.inl h1))
      · rcases ih h1 with h2 | h2
        · exact Or.inl (List.mem_cons.2 (Or.inr h2))
        · exact Or.inr h2

theorem nodup_map_ID_updateOneUpsert (store : List EntityDoc) (e : Entity)
    (h : (store.map EntityDoc.ID).Nodup) :
    ((updateOneUpsert store e).map EntityDoc.ID).Nodup := by
  induction store with
  | nil => simp [updateOneUpsert]
  | cons d rest ih =>
    rw [List.map_cons, List.nodup_cons] at h
    rw [updateOneUpsert_cons]
    rcases eq_or_ne d.ID e.ID with heq | hne
    · rw [if_pos heq, List.map_cons, applyUpdate_ID, List.nodup_cons]
      exact ⟨h.1, h.2⟩
    · rw [if_neg hne, List.map_cons, List.nodup_cons]
      refine ⟨fun hmem => ?_, ih h.2⟩
      rcases mem_map_ID_updateOneUpsert rest e d.ID hmem with h2 | h2
      · exact h.1 h2
      · exact hne h2

theorem nodup_map_ID_bulk_write (store : List EntityDoc) (es : List Entity)
    (h : (store.map EntityDoc.ID).Nodup) :
    ((bulk_write store es).map EntityDoc.ID).Nodup := by
  induction es generalizing store with
  | nil => exact h
  | cons e rest ih =>
    show (((rest.foldl updateOneUpsert (updateOneUpsert store e))).map EntityDoc.ID).Nodup
    exact ih (updateOneUpsert store e) (nodup_map_ID_updateOneUpsert store e h)

/-- C4: starting from a store in which no two entity documents share an `ID`,
`add_documents` (each entity upserted with a filter matching its `ID`)
preserves the uniqueness of identifiers. -/
theorem add_documents_preserves_unique_IDs (store : List EntityDoc)
    (extracted : List (List Entity)) (h : (store.map EntityDoc.ID).Nodup) :
    (((add_documents store extracted).1).map EntityDoc.ID).Nodup := by
  induction extracted generalizing store with
  | nil => exact h
  | cons es rest ih =>
    rw [add_documents_cons]
    by_cases hes : es.isEmpty = true
    · rw [if_pos hes]
      exact ih store h
    · rw [if_neg hes]
      exact ih (bulk_write store es) (nodup_map_ID_bulk_write store es h)

/-- Witness for C4 at a concrete store and extraction result. -/
theorem add_documents_preserves_unique_IDs_witness :
    ((([wDoc].map EntityDoc.ID).Nodup) ∧
      (((add_documents [wDoc] [[wEnt]]).1).map EntityDoc.ID).Nodup) :=
  ⟨by decide, add_documents_preserves_unique_IDs [wDoc] [[wEnt]] (by decide)⟩

/-! ## Documents with empty extraction results -/

/-- C10: a document whose extraction yields no entities produces no write and
no bulk-write result entry, and the number of result entries is exactly the
number of documents with a nonempty extraction. -/
theorem add_documents_skips_empty_extraction (store : List EntityDoc)
    (pre post ext : List (List Entity)) :
    add_documents store (pre ++ [] :: post) = add_documents store (pre ++ post) ∧
    (add_documents store ext).2.length =
      (ext.filter (fun es => !es.isEmpty)).length := by
  constructor
  · induction pre generalizing store with
    | nil =>
      rw [List.nil_append, List.nil_append, add_documents_cons]
      simp
    | cons es rest ih =>
      rw [List.cons_append, List.cons_append, add_documents_cons, add_documents_cons]
      by_cases hes : es.isEmpty = true
      · rw [if_pos hes, if_pos hes]
        exact ih store
      · rw [if_neg hes, if_neg hes, ih]
  · induction ext generalizing store with
    | nil => rfl
    | cons es rest ih =>
      rw [add_documents_cons, List.filter_cons]
      by_cases hes : es.isEmpty = true
      · rw [if_pos hes, hes]
        simp only [Bool.not_true, Bool.false_eq_true, if_false]
        exact ih store
      · rw [if_neg hes]
        rw [show es.isEmpty = false from Bool.eq_false_iff.2 hes]
        simp only [Bool.not_false, if_true, List.length_cons]
        rw [ih (bulk_write store es)]

/-! ## Idempotence of the merge -/

/-- A stored document already contains everything the extracted entity `e`
would add: every extracted property value and every relationship-target
descriptor is present in the corresponding stored array. -/
def absorbs (d : EntityDoc) (e : Entity) : Prop :=
  (∀ kv ∈ e.properties, ∃ arr, lookupA d.properties kv.1 = some arr ∧ kv.2 ∈ arr) ∧
  (∀ kv ∈ e.relationships, ∃ arr, lookupA d.relationships kv.1 = some arr ∧ ∀ t ∈ kv.2, t ∈ arr)

/-- Some stored document matching `e`'s identifier absorbs `e`. -/
def absorbedIn (s : List EntityDoc) (e : Entity) : Prop :=
  ∃ d, getDoc s e.ID = some d ∧ absorbs d e

theorem applyUpdate_eq_self_of_absorbs (d : EntityDoc) (e : Entity) (h : absorbs d e) :
    applyUpdate d e = d := by
  unfold applyUpdate
  rw [foldl_assocAddToSet_eq_self (fun b => [b]) e.properties d.properties
    (fun kv hkv => by
      obtain ⟨arr, hl, hv⟩ := h.1 kv hkv
      exact ⟨arr, hl, fun v hv' => by rw [List.mem_singleton.1 hv']; exact hv⟩)]
  rw [foldl_assocAddToSet_eq_self (fun ts => ts) e.relationships d.relationships h.2]

theorem absorbs_applyUpdate (d : EntityDoc) (e : Entity) : absorbs (applyUpdate d e) e := by
  constructor
  · intro kv hkv
    obtain ⟨arr, hl, hv⟩ := foldl_assocAddToSet_absorbs (fun b => [b])
      e.properties d.properties kv hkv
    exact ⟨arr, hl, hv kv.2 (List.mem_singleton.2 rfl)⟩
  · exact foldl_assocAddToSet_absorbs (fun ts => ts) e.relationships d.relationships

theorem absorbs_mono_applyUpdate (d : EntityDoc) (e f : Entity) (h : absorbs d e) :
    absorbs (applyUpdate d f) e := by
  constructor
  · intro kv hkv
    obtain ⟨arr, hl, hv⟩ := h.1 kv hkv
    obtain ⟨arr', hl', hsub⟩ := lookupA_mono_foldl (fun b => [b]) f.properties
      d.properties kv.1 arr hl
    exact ⟨arr', hl', hsub hv⟩
  · intro kv hkv
    obtain ⟨arr, hl, hv⟩ := h.2 kv hkv
    obtain ⟨arr', hl', hsub⟩ := lookupA_mono_foldl (fun ts => ts) f.relationships
      d.relationships kv.1 arr hl
    exact ⟨arr', hl', fun t ht => hsub (hv t ht)⟩

theorem insertDoc_absorbs (e : Entity) : absorbs (insertDoc e) e := by
  constructor
  · intro kv hkv
    obtain ⟨arr, hl, hv⟩ := foldl_assocAddToSet_absorbs (fun b => [b])
      e.properties [] kv hkv
    exact ⟨arr, hl, hv kv.2 (List.mem_singleton.2 rfl)⟩
  · exact foldl_assocAddToSet_absorbs (fun ts => ts) e.relationships []

theorem getDoc_append_of_none (s s' : List EntityDoc) (i : String)
    (h : getDoc s i = none) : getDoc (s ++ s') i = getDoc s' i := by
  induction s with
  | nil => rfl
  | cons d rest ih =>
    rw [getDoc_cons] at h
    rcases eq_or_ne d.ID i with he | he
    · rw [if_pos he] at h; exact absurd h (by simp)
    · rw [if_neg he] at h
      rw [List.cons_append, getDoc_cons, if_neg he]
      exact ih h

theorem absorbedIn_updateOneUpsert_self (s : List EntityDoc) (e : Entity) :
    absorbedIn (updateOneUpsert s e) e := by
  rcases hd : getDoc s e.ID with - | d
  · rw [updateOneUpsert_of_getDoc_none s e hd]
    refine ⟨insertDoc e, ?_, insertDoc_absorbs e⟩
    rw [getDoc_append_of_none s _ _ hd, getDoc_cons, if_pos (insertDoc_ID e)]
  · exact ⟨applyUpdate d e, getDoc_updateOneUpsert_match s e d hd, absorbs_applyUpdate d e⟩

theorem absorbedIn_updateOneUpsert (s : List EntityDoc) (e f : Entity)
    (h : absorbedIn s e) : absorbedIn (updateOneUpsert s f) e := by
  obtain ⟨d, hd, hab⟩ := h
  rcases eq_or_ne e.ID f.ID with hid | hid
  · refine ⟨applyUpdate d f, ?_, absorbs_mono_applyUpdate d e f hab⟩
    rw [hid]
    exact getDoc_updateOneUpsert_match s f d (hid ▸ hd)
  · exact ⟨d, by rw [getDoc_updateOneUpsert_ne s f e.ID hid]; exact hd, hab⟩

theorem absorbedIn_bulk_write (s : List EntityDoc) (es : List Entity) (e : Entity)
    (h : absorbedIn s e) : absorbedIn (bulk_write s es) e := by
  induction es generalizing s with
  | nil => exact h
  | cons f rest ih => exact ih (updateOneUpsert s f) (absorbedIn_updateOneUpsert s e f h)

theorem bulk_write_all_absorbed (s : List EntityDoc) (es : List Entity) :
    ∀ e ∈ es, absorbedIn (bulk_write s es) e := by
  induction es generalizing s with
  | nil => intro e he; simp at he
  | cons f rest ih =>
    intro e he
    rcases List.mem_cons.1 he with rfl | he'
    · exact absorbedIn_bulk_write (updateOneUpsert s e) rest e
        (absorbedIn_updateOneUpsert_self s e)
    · exact ih (updateOneUpsert s f) e he'

theorem updateOneUpsert_eq_self (s : List EntityDoc) (e : Entity)
    (h : absorbedIn s e) : updateOneUpsert s e = s := by
  obtain ⟨d, hd, hab⟩ := h
  induction s with
  | nil => simp [getDoc_nil] at hd
  | cons d₁ rest ih =>
    rw [getDoc_cons] at hd
    rw [updateOneUpsert_cons]
    rcases eq_or_ne d₁.ID e.ID with heq | hne
    · rw [if_pos heq]
      rw [if_pos heq] at hd
      obtain rfl : d₁ = d := by injection hd
      rw [applyUpdate_eq_self_of_absorbs d₁ e hab]
    · rw [if_neg hne]
      rw [if_neg hne] at hd
      rw [ih hd]

theorem bulk_write_eq_self (s : List EntityDoc) (es : List Entity)
    (h : ∀ e ∈ es, absorbedIn s e) : bulk_write s es = s := by
  induction es with
  | nil => rfl
  | cons f rest ih =>
    show bulk_write (updateOneUpsert s f) rest = s
    rw [updateOneUpsert_eq_self s f (h f (by simp))]
    exact ih fun e he => h e (by simp [he])

theorem absorbedIn_add_documents (s : List EntityDoc) (ext : List (List Entity))
    (e : Entity) (h : absorbedIn s e) : absorbedIn (add_documents s ext).1 e := by
  induction ext generalizing s with
  | nil => exact h
  | cons es rest ih =>
    rw [add_documents_cons]
    by_cases hes : es.isEmpty = true
    · rw [if_pos hes]; exact ih s h
    · rw [if_neg hes]; exact ih (bulk_write s es) (absorbedIn_bulk_write s es e h)

theorem add_documents_all_absorbed (s : List EntityDoc) (ext : List (List Entity)) :
    ∀ es ∈ ext, ∀ e ∈ es, absorbedIn (add_documents s ext).1 e := by
  induction ext generalizing s with
  | nil => intro es hes; simp at hes
  | cons es₀ rest ih =>
    intro es hes e he
    rw [add_documents_cons]
    by_cases h0 : es₀.isEmpty = true
    · rw [if_pos h0]
      rcases List.mem_cons.1 hes with rfl | hes'
      · rw [List.isEmpty_iff.1 h0] at he; simp at he
      · exact ih s es hes' e he
    · rw [if_neg h0]
      rcases List.mem_cons.1 hes with rfl | hes'
      · exact absorbedIn_add_documents (bulk_write s es) rest e
          (bulk_write_all_absorbed s es e he)
      · exact ih (bulk_write s es₀) es hes' e he

theorem add_documents_state_eq_self (s : List EntityDoc) (ext : List (List Entity))
    (h : ∀ es ∈ ext, ∀ e ∈ es, absorbedIn s e) : (add_documents s ext).1 = s := by
  induction ext generalizing s with
  | nil => rfl
  | cons es rest ih =>
    rw [add_documents_cons]
    by_cases hes : es.isEmpty = true
    · rw [if_pos hes]
      exact ih s fun es' hes' => h es' (by simp [hes'])
    · rw [if_neg hes]
      rw [bulk_write_eq_self s es (h es (by simp))]
      exact ih s fun es' hes' => h es' (by simp [hes'])

/-- C3: the merge is idempotent — re-running the same bulk write, or re-adding
the same extraction results through `add_documents`, leaves the store state
exactly as after the first run. -/
theorem merge_idempotent (s : List EntityDoc) (es : List Entity)
    (ext : List (List Entity)) :
    bulk_write (bulk_write s es) es = bulk_write s es ∧
    (add_documents (add_documents s ext).1 ext).1 = (add_documents s ext).1 :=
  ⟨bulk_write_eq_self (bulk_write s es) es (bulk_write_all_absorbed s es),
    add_documents_state_eq_self (add_documents s ext).1 ext
      (add_documents_all_absorbed s ext)⟩

/-! ## The traversal pipeline -/

theorem groupFirstByID_not_mem_seen (xs : List EntityDoc) (seen : List String) :
    ∀ d ∈ groupFirstByID seen xs, d.ID ∉ seen := by
  induction xs generalizing seen with
  | nil => intro d hd; simp [groupFirstByID] at hd
  | cons d₀ rest ih =>
    intro d hd
    rw [show groupFirstByID seen (d₀ :: rest) = if d₀.ID ∈ seen
      then groupFirstByID seen rest
      else d₀ :: groupFirstByID (d₀.ID :: seen) rest from rfl] at hd
    by_cases h0 : d₀.ID ∈ seen
    · rw [if_pos h0] at hd
      exact ih seen d hd
    · rw [if_neg h0] at hd
      rcases List.mem_cons.1 hd with rfl | hd'
      · exact h0
      · have := ih (d₀.ID :: seen) d hd'
        exact fun hc => this (List.mem_cons.2 (Or.inr hc))

theorem nodup_map_ID_groupFirstByID (xs : List EntityDoc) (seen : List String) :
    ((groupFirstByID seen xs).map EntityDoc.ID).Nodup := by
  induction xs generalizing seen with
  | nil => simp [groupFirstByID]
  | cons d₀ rest ih =>
    rw [show groupFirstByID seen (d₀ :: rest) = if d₀.ID ∈ seen
      then groupFirstByID seen rest
      else d₀ :: groupFirstByID (d₀.ID :: seen) rest from rfl]
    by_cases h0 : d₀.ID ∈ seen
    · rw [if_pos h0]; exact ih seen
    · rw [if_neg h0, List.map_cons, List.nodup_cons]
      refine ⟨fun hc => ?_, ih (d₀.ID :: seen)⟩
      obtain ⟨d, hd, hid⟩ := List.mem_map.1 hc
      exact groupFirstByID_not_mem_seen rest (d₀.ID :: seen) d hd
        (List.mem_cons.2 (Or.inl hid))

theorem groupFirstByID_subset (xs : List EntityDoc) (seen : List String) :
    groupFirstByID seen xs ⊆ xs := by
  induction xs generalizing seen with
  | nil => exact fun d hd => hd
  | cons d₀ rest ih =>
    intro d hd
    rw [show groupFirstByID seen (d₀ :: rest) = if d₀.ID ∈ seen
      then groupFirstByID seen rest
      else d₀ :: groupFirstByID (d₀.ID :: seen) rest from rfl] at hd
    by_cases h0 : d₀.ID ∈ seen
    · rw [if_pos h0] at hd
      exact List.mem_cons.2 (Or.inr (ih seen hd))
    · rw [if_neg h0] at hd
      rcases List.mem_cons.1 hd with rfl | hd'
      · exact List.mem_cons.2 (Or.inl rfl)
      · exact List.mem_cons.2 (Or.inr (ih (d₀.ID :: seen) hd'))

theorem mem_graphLookupGo (store : List EntityDoc) (fuel : Nat) (frontier : List String)
    (found : List EntityDoc) :
    ∀ x ∈ graphLookupGo store fuel frontier found, x ∈ found ∨ x ∈ store := by
  induction fuel generalizing frontier found with
  | zero => exact fun x hx => Or.inl hx
  | succ n ih =>
    intro x hx
    rcases ih _ _ x hx with h | h
    · rcases List.mem_append.1 h with h1 | h1
      · exact Or.inl h1
      · exact Or.inr (List.mem_of_mem_filter h1)
    · exact Or.inr h

theorem mem_relatedEntitiesPipeline (store : List EntityDoc) (starting : List String)
    (md : Nat) : ∀ x ∈ relatedEntitiesPipeline store starting md, x ∈ store := by
  intro x hx
  have hx' := groupFirstByID_subset _ [] hx
  obtain ⟨l, hl, hxl⟩ := List.mem_flatten.1 hx'
  obtain ⟨d, -, rfl⟩ := List.mem_map.1 hl
  rcases mem_graphLookupGo store _ _ [] x hxl with h | h
  · simp at h
  · exact h

/-- C6: the list returned by `related_entities` is deduplicated by
identifier — no two returned entities share an `ID`. -/
theorem related_entities_nodup_IDs (self : MongoDBGraphStore)
    (starting_entities : List String) (max_depth : Nat) :
    (((self.related_entities starting_entities max_depth).map EntityDoc.ID)).Nodup :=
  nodup_map_ID_groupFirstByID _ []

/-- C7: the traversal is cycle-safe — on every finite store, cyclic or not,
`related_entities` returns a list no longer than the store itself (each
stored entity appears at most once), rather than revisiting nodes
unboundedly. -/
theorem related_entities_cycle_safe (self : MongoDBGraphStore)
    (starting_entities : List String) (max_depth : Nat) :
    (self.related_entities starting_entities max_depth).length ≤ self.collection.length := by
  have hsub : self.related_entities starting_entities max_depth ⊆ self.collection :=
    fun x hx => mem_relatedEntitiesPipeline self.collection starting_entities _ x hx
  have hmap : (self.related_entities starting_entities max_depth).map EntityDoc.ID ⊆
      self.collection.map EntityDoc.ID := fun x hx => by
    obtain ⟨d, hd, rfl⟩ := List.mem_map.1 hx
    exact List.mem_map.2 ⟨d, hsub hd, rfl⟩
  have hlen := (List.subperm_of_subset
    (nodup_map_ID_groupFirstByID _ []) hmap).length_le
  rw [List.length_map, List.length_map] at hlen
  exact hlen

/-- C8: with an empty list of starting entity identifiers, the `$match` stage
selects no seed documents and `related_entities` returns the empty list. -/
theorem related_entities_empty_seeds (self : MongoDBGraphStore) (max_depth : Nat) :
    self.related_entities [] max_depth = [] := by
  show relatedEntitiesPipeline self.collection [] (pyOr max_depth self.max_depth) = []
  unfold relatedEntitiesPipeline
  rw [show self.collection.filter (fun d => decide (d.ID ∈ ([] : List String))) = []
    from by simp]
  rfl

/-- C9: because the traversal depth is `max_depth or self.max_depth`, passing
an explicit `max_depth` of `0` runs the pipeline at the store's configured
default depth, exactly as a call at that default does — depth-0 traversal
cannot be requested. -/
theorem related_entities_depth_zero_uses_default (self : MongoDBGraphStore)
    (starting_entities : List String) :
    self.related_entities starting_entities 0 =
      self.related_entities starting_entities self.max_depth := by
  unfold MongoDBGraphStore.related_entities
  rw [show pyOr 0 self.max_depth = self.max_depth from rfl]
  rw [show pyOr self.max_depth self.max_depth = self.max_depth from by
    unfold pyOr; exact ite_self self.max_depth]

/-! ## The traversal does not follow edges transitively -/

/-- A three-entity chain: `"A"` has a relationship targeting `"B"`, and `"B"`
one targeting `"C"`. -/
def docA : EntityDoc :=
  { ID := "A", type := "T", relationships := [("edge", [{ target := "B" }])] }

def docB : EntityDoc :=
  { ID := "B", type := "T", relationships := [("edge", [{ target := "C" }])] }

def docC : EntityDoc := { ID := "C", type := "T" }

def chainStore : List EntityDoc := [docA, docB, docC]

/-- C5: on the chain `A → B → C`, `related_entities` with seed `"A"` and
`max_depth = 3` returns only the direct target `B`.  Because the
`$graphLookup` uses `connectFromField: "ID"` — the same field as
`connectToField` — each recursion step re-matches the documents already
found, so the entity `C`, reachable within the depth limit per the spec's
transitive closure (`specReachableEntities`), is never returned. -/
theorem related_entities_misses_transitive_closure :
    MongoDBGraphStore.related_entities { collection := chainStore, max_depth := 2 }
      ["A"] 3 = [docB] ∧
    docC ∈ specReachableEntities chainStore ["A"] 3 ∧
    docC ∉ MongoDBGraphStore.related_entities { collection := chainStore, max_depth := 2 }
      ["A"] 3 := by
  refine ⟨by decide, by decide, by decide⟩

end GraphRAG
